import Mathlib

/-!
Shallow embedding of the font-editor core (`App.jsx`): the 256-slot character
table, the anchor-based selection model, and the edit operations
(select, move/reorder, copy-drag, clipboard copy/paste, reset,
copy-segments-from, update), together with the keyboard arrow navigation and
the load normalisation.  JavaScript `Set` objects are modelled as
insertion-ordered duplicate-free lists, arrays as Lean lists, and `null`
entries as `Option.none`.
-/

set_option autoImplicit false
set_option maxRecDepth 8000

namespace FontEditor

/-- A character record: a segment bitmask and an optional name. -/
structure Character where
  segments : Nat
  name : Option String
deriving DecidableEq

/-- JavaScript truthiness of a `name` field (`null`/missing and `""` are falsy). -/
def nameTruthy : Option String → Bool
  | none => false
  | some s => !(s == "")

/-- The character table: 256 slots, each `null` or a character. -/
abbrev Chars := List (Option Character)

/-- Reading `arr[i]` on a JS array of length 256: out-of-range reads give a falsy value,
modelled as `none`. -/
def jsGet (cs : Chars) (i : Nat) : Option Character :=
  cs.getD i none

/-- A font document: a name plus the 256-slot table. -/
structure Font where
  name : String
  characters : Chars
deriving DecidableEq

/-- JS createEmptyFont: all slots null except slot 0, which is `{segments:0, name:null}`. -/
def createEmptyFont (name : String) : Font :=
  { name, characters := (List.replicate 256 (none : Option Character)).set 0 (some ⟨0, none⟩) }

/-- The selection: an anchor index plus the insertion-ordered set of selected
indices (a JS `Set`, modelled as a duplicate-free list in insertion order). -/
structure Selection where
  anchor : Nat
  selected : List Nat
deriving DecidableEq

/-- JS Set.add: append if not already present. -/
def setAdd (l : List Nat) (x : Nat) : List Nat :=
  if x ∈ l then l else l ++ [x]

/-- JS Set.delete: remove the element. -/
def setDelete (l : List Nat) (x : Nat) : List Nat :=
  l.filter (fun y => y ≠ x)

/-- JS new Set(list): deduplicate keeping first occurrences, in insertion order. -/
def setOfList (l : List Nat) : List Nat :=
  l.foldl setAdd []

/-- JS createSelectionRange: the inclusive ascending range between `anchor` and
`focus` (insertion order is ascending). -/
def createSelectionRange (anchor focus : Nat) : List Nat :=
  (List.range (max anchor focus + 1 - min anchor focus)).map (fun i => min anchor focus + i)

/-- JS Array.from(set).sort with numeric comparator: ascending insertion sort. -/
def insertAsc (x : Nat) : List Nat → List Nat
  | [] => [x]
  | y :: ys => if x ≤ y then x :: y :: ys else y :: insertAsc x ys

/-- Ascending numeric sort of the selected indices. -/
def sortAsc (l : List Nat) : List Nat :=
  l.foldr insertAsc []

/-- "Empty content": zero segments and a falsy name — eligible for auto-revert. -/
def isEmptyContent (c : Character) : Bool :=
  c.segments == 0 && !(nameTruthy c.name)

/-- The cleanup loop of `handleSelect`: revert every empty-content character in
the previous selection, other than the freshly clicked index, to null. -/
def revertEmpties (index : Nat) (prevSelected : List Nat) (cs : Chars) : Chars :=
  prevSelected.foldl (fun acc prevIndex =>
    if prevIndex ≠ index then
      match jsGet acc prevIndex with
      | some c => if isEmptyContent c then acc.set prevIndex none else acc
      | none => acc
    else acc) cs

/-- The document half of `handleSelect`: revert empties, then auto-create at the
clicked index when it is null and the click is not a shift-click. -/
def handleSelectFont (index : Nat) (shift : Bool) (font : Font) (sel : Selection) : Font :=
  let chars1 := revertEmpties index sel.selected font.characters
  let chars2 :=
    if !shift && (jsGet chars1 index).isNone then chars1.set index (some ⟨0, none⟩) else chars1
  { font with characters := chars2 }

/-- The selection half of `handleSelect`: plain / shift / ctrl transition rules. -/
def handleSelectSel (index : Nat) (shift ctrl : Bool) (prev : Selection) : Selection :=
  if shift then
    { anchor := prev.anchor, selected := createSelectionRange prev.anchor index }
  else if ctrl then
    if index ∈ prev.selected then
      let newSelected := setDelete prev.selected index
      if index = prev.anchor then
        match newSelected with
        | [] => { anchor := index, selected := [index] }
        | first :: rest => { anchor := first, selected := first :: rest }
      else { anchor := index, selected := newSelected }
    else { anchor := index, selected := prev.selected ++ [index] }
  else { anchor := index, selected := [index] }

/-- JS handleSelect: the document cleanup/auto-create coupled with the selection
transition, published together. -/
def handleSelect (index : Nat) (shift ctrl : Bool) (font : Font) (sel : Selection) :
    Font × Selection :=
  (handleSelectFont index shift font sel, handleSelectSel index shift ctrl sel)

/-- JS Math.max(0, Math.min(255, x)) followed by use as an index. -/
def clampIdx (x : Int) : Nat :=
  (max 0 (min 255 x)).toNat

/-- The `(src, dst)` pairs of `handleReorder`/`handleCopyCharacter`: selected
indices sorted ascending, each paired with `src + offset`. -/
def reorderMoves (selected : List Nat) (offset : Int) : List (Nat × Int) :=
  (sortAsc selected).map (fun src => (src, (src : Int) + offset))

/-- Clear phase of `handleReorder`: null out each source that is not also a
destination. -/
def clearSources (dstSet : List Int) (moves : List (Nat × Int)) (cs : Chars) : Chars :=
  moves.foldl (fun acc m => if (m.1 : Int) ∈ dstSet then acc else acc.set m.1 none) cs

/-- Write phase of `handleReorder`: place each captured character at its
destination. -/
def placeChars (writes : List (Nat × Option Character)) (cs : Chars) : Chars :=
  writes.foldl (fun acc w => acc.set w.1 w.2) cs

/-- JS handleReorder(fromIndex, toIndex): move the whole selection by
`toIndex - fromIndex`; no-op when `fromIndex == toIndex`, when `toIndex` is out
of range, or when any computed destination is out of range. -/
def handleReorder (fromIndex toIndex : Int) (font : Font) (sel : Selection) :
    Font × Selection :=
  if fromIndex = toIndex then (font, sel)
  else if toIndex < 0 ∨ 256 ≤ toIndex then (font, sel)
  else
    let offset := toIndex - fromIndex
    let moves := reorderMoves sel.selected offset
    if moves.any (fun m => m.2 < 0 ∨ 256 ≤ m.2) then (font, sel)
    else
      let movedChars := moves.map (fun m => (m.2.toNat, jsGet font.characters m.1))
      let dstSet := moves.map (fun m => m.2)
      let chars2 := placeChars movedChars (clearSources dstSet moves font.characters)
      ({ font with characters := chars2 },
       { anchor := clampIdx ((sel.anchor : Int) + offset),
         selected := setOfList (moves.map (fun m => m.2.toNat)) })

/-- The derived character written by copy-drag and paste: segments verbatim,
name suffixed with `_copy` when truthy, else null. -/
def copyOf (c : Character) : Character :=
  { segments := c.segments,
    name := if nameTruthy c.name then some (c.name.getD "" ++ "_copy") else none }

/-- Write phase of `handleCopyCharacter`: each destination whose source is
defined receives a fresh `_copy` character; absent sources are skipped. -/
def placeCopies (src : Chars) (copies : List (Nat × Int)) (cs : Chars) : Chars :=
  copies.foldl (fun acc c =>
    match jsGet src c.1 with
    | some sourceChar => acc.set c.2.toNat (some (copyOf sourceChar))
    | none => acc) cs

/-- JS handleCopyCharacter(fromIndex, toIndex): ctrl-drag copy of the whole
selection; same guards and offset as `handleReorder`, sources untouched. -/
def handleCopyCharacter (fromIndex toIndex : Int) (font : Font) (sel : Selection) :
    Font × Selection :=
  if fromIndex = toIndex then (font, sel)
  else if toIndex < 0 ∨ 256 ≤ toIndex then (font, sel)
  else
    let offset := toIndex - fromIndex
    let copies := reorderMoves sel.selected offset
    if copies.any (fun c => c.2 < 0 ∨ 256 ≤ c.2) then (font, sel)
    else
      ({ font with characters := placeCopies font.characters copies font.characters },
       { anchor := clampIdx ((sel.anchor : Int) + offset),
         selected := setOfList (copies.map (fun c => c.2.toNat)) })

/-- One clipboard entry: an offset from the anchor and the captured character. -/
structure ClipEntry where
  offset : Int
  char : Character
deriving DecidableEq

/-- The clipboard: a non-document-specific list of entries. -/
structure Clipboard where
  characters : List ClipEntry
deriving DecidableEq

/-- The snapshot built by `handleCopySelection`: selected indices sorted
ascending, mapped to `(idx - anchor, char)`, dropping null slots. -/
def clipSnapshot (font : Font) (sel : Selection) : List ClipEntry :=
  (sortAsc sel.selected).filterMap (fun idx =>
    match jsGet font.characters idx with
    | some c => some ⟨(idx : Int) - (sel.anchor : Int), c⟩
    | none => none)

/-- JS handleCopySelection: replace the clipboard by the snapshot when it is
non-empty, otherwise leave the clipboard unchanged. -/
def handleCopySelection (font : Font) (sel : Selection) (clip : Option Clipboard) :
    Option Clipboard :=
  let characters := clipSnapshot font sel
  if 0 < characters.length then some ⟨characters⟩ else clip

/-- Write phase of `handlePaste`. -/
def placePastes (pastes : List (Int × Character)) (cs : Chars) : Chars :=
  pastes.foldl (fun acc p => acc.set p.1.toNat (some (copyOf p.2))) cs

/-- JS handlePaste: write a `_copy` character at `anchor + offset` for every
clipboard entry; abort wholesale when the clipboard is empty or any destination
is out of range.  The selection becomes the destination set, anchor unchanged. -/
def handlePaste (font : Font) (sel : Selection) (clip : Option Clipboard) :
    Font × Selection :=
  match clip with
  | none => (font, sel)
  | some cb =>
    if cb.characters.length = 0 then (font, sel)
    else
      let pastes := cb.characters.map (fun item => ((sel.anchor : Int) + item.offset, item.char))
      if pastes.any (fun p => p.1 < 0 ∨ 256 ≤ p.1) then (font, sel)
      else
        ({ font with characters := placePastes pastes font.characters },
         { anchor := sel.anchor, selected := setOfList (pastes.map (fun p => p.1.toNat)) })

/-- JS handleResetSelection: zero the segments of every selected defined slot,
preserving names; absent slots untouched. -/
def resetChars (selected : List Nat) (cs : Chars) : Chars :=
  selected.foldl (fun acc idx =>
    match jsGet acc idx with
    | some c => acc.set idx (some { c with segments := 0 })
    | none => acc) cs

/-- JS handleCopyFrom(fromIndex): overwrite the segments at the anchor slot with
the segments of the source slot, keeping the previous name of the anchor slot
(or no name when the anchor slot was null); no-op when the source slot is null. -/
def handleCopyFrom (fromIndex : Nat) (font : Font) (sel : Selection) : Font :=
  match jsGet font.characters fromIndex with
  | none => font
  | some sourceChar =>
    let prevName :=
      match jsGet font.characters sel.anchor with
      | some c => c.name
      | none => none
    { font with
      characters := font.characters.set sel.anchor (some ⟨sourceChar.segments, prevName⟩) }

/-- The four arrow keys. -/
inductive ArrowKey where
  | up | down | left | right
deriving DecidableEq

/-- The clamped next anchor of arrow navigation (row stride 16, no wraparound). -/
def arrowNext : ArrowKey → Nat → Nat
  | .up, current => if 16 ≤ current then current - 16 else current
  | .down, current => if current < 240 then current + 16 else current
  | .left, current => if 0 < current then current - 1 else current
  | .right, current => if current < 255 then current + 1 else current

/-- Arrow-key branch of `handleKeyDown`: when the clamped next anchor differs
from the current one, issue `handleSelect(next, {shift})` (ctrl is not passed). -/
def handleArrowKey (key : ArrowKey) (shiftKey : Bool) (font : Font) (sel : Selection) :
    Font × Selection :=
  let next := arrowNext key sel.anchor
  if next ≠ sel.anchor then handleSelect next shiftKey false font sel else (font, sel)

/-- The whole editor state: document, selection, clipboard. -/
structure State where
  font : Font
  sel : Selection
  clip : Option Clipboard
deriving DecidableEq

/-- The engine operations reachable from UI events. -/
inductive Op where
  | select (index : Nat) (shift ctrl : Bool)
  | reorder (fromIndex toIndex : Int)
  | copyChar (fromIndex toIndex : Int)
  | copySel
  | paste
  | reset
  | copyFrom (fromIndex : Nat)
  | update (c : Character)
  | arrow (key : ArrowKey) (shift : Bool)
  | newFont
deriving DecidableEq

/-- One dispatch of an operation against the editor state. -/
def applyOp : Op → State → State
  | .select index shift ctrl, s =>
      let fs := handleSelect index shift ctrl s.font s.sel
      ⟨fs.1, fs.2, s.clip⟩
  | .reorder f t, s =>
      let fs := handleReorder f t s.font s.sel
      ⟨fs.1, fs.2, s.clip⟩
  | .copyChar f t, s =>
      let fs := handleCopyCharacter f t s.font s.sel
      ⟨fs.1, fs.2, s.clip⟩
  | .copySel, s => ⟨s.font, s.sel, handleCopySelection s.font s.sel s.clip⟩
  | .paste, s =>
      let fs := handlePaste s.font s.sel s.clip
      ⟨fs.1, fs.2, s.clip⟩
  | .reset, s =>
      ⟨{ s.font with characters := resetChars s.sel.selected s.font.characters }, s.sel, s.clip⟩
  | .copyFrom i, s => ⟨handleCopyFrom i s.font s.sel, s.sel, s.clip⟩
  | .update c, s =>
      ⟨{ s.font with characters := s.font.characters.set s.sel.anchor (some c) }, s.sel, s.clip⟩
  | .arrow k sh, s =>
      let fs := handleArrowKey k sh s.font s.sel
      ⟨fs.1, fs.2, s.clip⟩
  | .newFont, s => ⟨createEmptyFont "Untitled Font", ⟨0, [0]⟩, s.clip⟩

/-! Load normalisation (`handleLoadFont`) works on raw JSON-derived values, so
its fields are modelled as dynamic JS values rather than typed records. -/

/-- A dynamic JS value as it may appear in a loaded JSON field. -/
inductive JSVal where
  | num (n : Int)
  | str (s : String)
  | jsNull
  | undef
  | jsBool (b : Bool)
deriving DecidableEq

/-- JS truthiness of a dynamic value (0, empty string, null, undefined and
false are falsy). -/
def JSVal.truthy : JSVal → Bool
  | .num n => !(n == 0)
  | .str s => !(s == "")
  | .jsNull => false
  | .undef => false
  | .jsBool b => b

/-- Whether a dynamic value is a number. -/
def JSVal.isNum : JSVal → Bool
  | .num _ => true
  | _ => false

/-- The JS expression a OR b: a when truthy, else b. -/
def jsOr (a b : JSVal) : JSVal :=
  if a.truthy then a else b

/-- A raw character entry of the loaded JSON: both fields are dynamic values
(possibly missing, modelled as `undef`). -/
structure RawChar where
  segments : JSVal
  name : JSVal
deriving DecidableEq

/-- The raw loaded document: a dynamic name and an optional character array
whose entries are null or raw records. -/
structure RawData where
  name : JSVal
  characters : Option (List (Option RawChar))
deriving DecidableEq

/-- A normalised loaded character; its fields are still dynamic values because
the normalisation keeps any truthy raw value unchanged. -/
structure LChar where
  segments : JSVal
  name : JSVal
deriving DecidableEq

/-- The loaded character table. -/
abbrev LChars := List (Option LChar)

/-- Reading a slot of the loaded table. -/
def jsGetL (cs : LChars) (i : Nat) : Option LChar :=
  cs.getD i none

/-- The body of the load loop: segments OR 0, name OR null. -/
def normalizeChar (c : RawChar) : LChar :=
  ⟨jsOr c.segments (.num 0), jsOr c.name .jsNull⟩

/-- The forEach loop of `handleLoadFont`: write each non-null entry with index
below 256 into the table, normalised. -/
def fillChars (idx : Nat) : List (Option RawChar) → LChars → LChars
  | [], acc => acc
  | e :: rest, acc =>
      fillChars (idx + 1) rest
        (if idx < 256 then
          match e with
          | some c => acc.set idx (some (normalizeChar c))
          | none => acc
        else acc)

/-- The table built by `handleLoadFont`: 256 null slots, filled from the raw
array when present, then slot 0 forced to a blank character if still null. -/
def loadChars (raw : Option (List (Option RawChar))) : LChars :=
  let base : LChars := List.replicate 256 none
  let filled :=
    match raw with
    | none => base
    | some entries => fillChars 0 entries base
  if (jsGetL filled 0).isNone then filled.set 0 (some ⟨.num 0, .jsNull⟩) else filled

/-- The loaded font document. -/
structure LFont where
  name : JSVal
  characters : LChars
deriving DecidableEq

/-- JS handleLoadFont: normalise the raw data into a 256-slot table with slot 0
forced defined, and default the name to the string Loaded Font. -/
def handleLoadFont (data : RawData) : LFont :=
  ⟨jsOr data.name (.str "Loaded Font"), loadChars data.characters⟩

/-! Predicates used to state the claims. -/

/-- The selection invariant of claim C1: the anchor is a member of the selected
set. -/
@[reducible] def anchorOk (s : State) : Prop :=
  s.sel.anchor ∈ s.sel.selected

/-- The transitions exempted by the amended claim C1: ctrl-toggle removal of a
selected non-anchor index, and a paste whose clipboard has no entry with
offset 0. -/
@[reducible] def opKeepsAnchor : Op → State → Prop
  | .select index shift ctrl, s =>
      ¬(shift = false ∧ ctrl = true ∧ index ∈ s.sel.selected ∧ index ≠ s.sel.anchor)
  | .paste, s =>
      match s.clip with
      | none => True
      | some cb => cb.characters = [] ∨ (0 : Int) ∈ cb.characters.map ClipEntry.offset
  | _, _ => True

/-- Well-formedness of an operation against a state: the indices it writes
through unchecked (the clicked index, or the anchor for direct updates) lie in
the 256-slot range, as the UI guarantees. -/
@[reducible] def opWellFormed (s : State) : Op → Prop
  | .select index _ _ => index < 256
  | .update _ => s.sel.anchor < 256
  | .copyFrom _ => s.sel.anchor < 256
  | _ => True

/-! Concrete fixtures for counterexamples and witnesses. -/

/-- Build a 256-slot table holding the given characters at the given indices. -/
def mkChars (l : List (Nat × Character)) : Chars :=
  l.foldl (fun acc p => acc.set p.1 (some p.2)) (List.replicate 256 none)

/-- A font holding plain characters 10, 11, 12 at slots 0, 1, 2. -/
def fontABC : Font :=
  ⟨"Font", mkChars [(0, ⟨10, none⟩), (1, ⟨11, none⟩), (2, ⟨12, none⟩)]⟩

/-- A font holding a named character at slot 4 and an unnamed one at slot 6. -/
def fontClip : Font :=
  ⟨"Font", mkChars [(4, ⟨7, some "A"⟩), (6, ⟨9, none⟩)]⟩

/-- A font holding a single named character at slot 3. -/
def fontSrc : Font :=
  ⟨"Font", mkChars [(3, ⟨42, some "S"⟩)]⟩

/-- A font holding non-empty characters at slots 0 and 1. -/
def fontBB : Font :=
  ⟨"Font", mkChars [(0, ⟨1, none⟩), (1, ⟨1, none⟩)]⟩

/-- A clipboard as produced by copying selection 4, 6 with anchor 4 over
`fontClip`. -/
def cbW : Clipboard :=
  ⟨[⟨0, ⟨7, some "A"⟩⟩, ⟨2, ⟨9, none⟩⟩]⟩

/-- Raw load data with one entry: missing segments and a truthy name. -/
def rawW : RawData :=
  ⟨.str "F", some [some ⟨.undef, .str "A"⟩]⟩

/-! Basic lemmas: slot reads against writes, sorting, set emulation. -/

theorem jsGet_set_self (cs : Chars) (i : Nat) (v : Option Character) (h : i < cs.length) :
    jsGet (cs.set i v) i = v := by
  simp [jsGet, List.getD_eq_getElem?_getD, List.getElem?_set_self h]

theorem jsGet_set_ne (cs : Chars) (i j : Nat) (v : Option Character) (h : i ≠ j) :
    jsGet (cs.set i v) j = jsGet cs j := by
  simp [jsGet, List.getD_eq_getElem?_getD, List.getElem?_set_ne h]

theorem jsGet_eq_none_of_le (cs : Chars) (i : Nat) (h : cs.length ≤ i) :
    jsGet cs i = none := by
  simp [jsGet, List.getD_eq_getElem?_getD, List.getElem?_eq_none h]

theorem lt_length_of_jsGet_eq_some {cs : Chars} {i : Nat} {c : Character}
    (h : jsGet cs i = some c) : i < cs.length := by
  by_contra hn
  rw [jsGet_eq_none_of_le cs i (by omega)] at h
  exact Option.noConfusion h

theorem jsGetL_set_self (cs : LChars) (i : Nat) (v : Option LChar) (h : i < cs.length) :
    jsGetL (cs.set i v) i = v := by
  simp [jsGetL, List.getD_eq_getElem?_getD, List.getElem?_set_self h]

theorem jsGetL_set_ne (cs : LChars) (i j : Nat) (v : Option LChar) (h : i ≠ j) :
    jsGetL (cs.set i v) j = jsGetL cs j := by
  simp [jsGetL, List.getD_eq_getElem?_getD, List.getElem?_set_ne h]

theorem jsGetL_eq_none_of_le (cs : LChars) (i : Nat) (h : cs.length ≤ i) :
    jsGetL cs i = none := by
  simp [jsGetL, List.getD_eq_getElem?_getD, List.getElem?_eq_none h]

theorem insertAsc_perm (x : Nat) (l : List Nat) : (insertAsc x l).Perm (x :: l) := by
  induction l with
  | nil => simp [insertAsc]
  | cons y ys ih =>
    rw [insertAsc]
    split
    · exact List.Perm.refl _
    · exact List.Perm.trans (List.Perm.cons y ih) (List.Perm.swap x y ys)

theorem sortAsc_perm (l : List Nat) : (sortAsc l).Perm l := by
  induction l with
  | nil => simp [sortAsc]
  | cons x xs ih =>
    have h1 : sortAsc (x :: xs) = insertAsc x (sortAsc xs) := rfl
    rw [h1]
    exact List.Perm.trans (insertAsc_perm x (sortAsc xs)) (List.Perm.cons x ih)

theorem mem_sortAsc {x : Nat} {l : List Nat} : x ∈ sortAsc l ↔ x ∈ l :=
  (sortAsc_perm l).mem_iff

theorem sortAsc_nodup {l : List Nat} (h : l.Nodup) : (sortAsc l).Nodup :=
  ((sortAsc_perm l).nodup_iff).mpr h

theorem mem_foldl_setAdd (l : List Nat) (acc : List Nat) (x : Nat) :
    x ∈ l.foldl setAdd acc ↔ x ∈ acc ∨ x ∈ l := by
  induction l generalizing acc with
  | nil => simp
  | cons y ys ih =>
    rw [List.foldl_cons, ih]
    unfold setAdd
    split
    · next hy =>
      constructor
      · rintro (h | h)
        · exact Or.inl h
        · exact Or.inr (List.mem_cons_of_mem y h)
      · rintro (h | h)
        · exact Or.inl h
        · rcases List.mem_cons.mp h with rfl | h
          · exact Or.inl hy
          · exact Or.inr h
    · simp only [List.mem_append, List.mem_singleton, List.mem_cons]
      tauto

theorem mem_setOfList {x : Nat} {l : List Nat} : x ∈ setOfList l ↔ x ∈ l := by
  rw [setOfList, mem_foldl_setAdd]
  simp

theorem mem_createSelectionRange {a f x : Nat} :
    x ∈ createSelectionRange a f ↔ min a f ≤ x ∧ x ≤ max a f := by
  simp only [createSelectionRange, List.mem_map, List.mem_range]
  constructor
  · rintro ⟨i, hi, rfl⟩
    omega
  · rintro ⟨h1, h2⟩
    exact ⟨x - min a f, by omega, by omega⟩

theorem anchor_mem_createSelectionRange (a f : Nat) : a ∈ createSelectionRange a f := by
  rw [mem_createSelectionRange]
  constructor <;> omega

theorem clampIdx_eq_toNat {x : Int} (h1 : 0 ≤ x) (h2 : x < 256) : clampIdx x = x.toNat := by
  rw [clampIdx, max_def, min_def]
  split
  all_goals try split
  all_goals omega

/-! Length preservation for every table-updating loop. -/

theorem foldl_length_fixed {α β : Type} (f : List β → α → List β)
    (hf : ∀ cs a, (f cs a).length = cs.length) :
    ∀ (l : List α) (cs : List β), (l.foldl f cs).length = cs.length := by
  intro l
  induction l with
  | nil => intro cs; rfl
  | cons x xs ih => intro cs; rw [List.foldl_cons, ih, hf]

theorem length_revertEmpties (index : Nat) (sel : List Nat) (cs : Chars) :
    (revertEmpties index sel cs).length = cs.length := by
  refine foldl_length_fixed _ ?_ sel cs
  intro cs2 j
  dsimp only
  split
  · cases jsGet cs2 j <;> simp only [List.length_set] <;> split <;> simp [List.length_set]
  · rfl

theorem length_clearSources (d : List Int) (ms : List (Nat × Int)) (cs : Chars) :
    (clearSources d ms cs).length = cs.length := by
  refine foldl_length_fixed _ ?_ ms cs
  intro cs2 m
  dsimp only
  split <;> simp [List.length_set]

theorem length_placeChars (ws : List (Nat × Option Character)) (cs : Chars) :
    (placeChars ws cs).length = cs.length := by
  refine foldl_length_fixed _ ?_ ws cs
  intro cs2 w
  simp [List.length_set]

theorem length_placeCopies (src : Chars) (copies : List (Nat × Int)) (cs : Chars) :
    (placeCopies src copies cs).length = cs.length := by
  refine foldl_length_fixed _ ?_ copies cs
  intro cs2 c
  dsimp only
  cases jsGet src c.1 <;> simp [List.length_set]

theorem length_placePastes (ps : List (Int × Character)) (cs : Chars) :
    (placePastes ps cs).length = cs.length := by
  refine foldl_length_fixed _ ?_ ps cs
  intro cs2 p
  simp [List.length_set]

theorem length_resetChars (sel : List Nat) (cs : Chars) :
    (resetChars sel cs).length = cs.length := by
  refine foldl_length_fixed _ ?_ sel cs
  intro cs2 idx
  dsimp only
  cases jsGet cs2 idx <;> simp [List.length_set]

theorem length_fillChars (es : List (Option RawChar)) (n : Nat) (acc : LChars) :
    (fillChars n es acc).length = acc.length := by
  induction es generalizing n acc with
  | nil => rfl
  | cons e rest ih =>
    show (fillChars (n + 1) rest _).length = _
    rw [ih]
    split
    · cases e <;> simp [List.length_set]
    · rfl

/-! Pointwise characterisation of the table-updating loops. -/

theorem jsGet_revertStep_ne (index j i : Nat) (cs : Chars) (hji : j ≠ i) :
    jsGet
      (if j ≠ index then
        match jsGet cs j with
        | some c => if isEmptyContent c then cs.set j none else cs
        | none => cs
      else cs) i = jsGet cs i := by
  split
  · rcases hq : jsGet cs j with _ | c
    · rfl
    · dsimp only
      split
      · exact jsGet_set_ne cs j i none hji
      · rfl
  · rfl

theorem jsGet_revertEmpties_untouched (index : Nat) (sel : List Nat) (cs : Chars) (i : Nat)
    (h : i = index ∨ i ∉ sel) : jsGet (revertEmpties index sel cs) i = jsGet cs i := by
  induction sel generalizing cs with
  | nil => rfl
  | cons j js ih =>
    have htail : i = index ∨ i ∉ js := by
      rcases h with rfl | h
      · exact Or.inl rfl
      · exact Or.inr fun hc => h (List.mem_cons_of_mem j hc)
    show jsGet (revertEmpties index js _) i = _
    rw [ih _ htail]
    by_cases hji : j = i
    · subst hji
      have hj : j = index := by
        rcases h with rfl | h
        · rfl
        · exact absurd (List.mem_cons_self j js) h
      dsimp only
      rw [if_neg (by simp [hj])]
    · exact jsGet_revertStep_ne index j i cs hji

theorem jsGet_revertEmpties_none (index : Nat) (sel : List Nat) (cs : Chars) (i : Nat)
    (h : jsGet cs i = none) : jsGet (revertEmpties index sel cs) i = none := by
  induction sel generalizing cs with
  | nil => exact h
  | cons j js ih =>
    show jsGet (revertEmpties index js _) i = none
    apply ih
    by_cases hji : j = i
    · subst hji
      dsimp only
      split
      · rw [h]
        exact h
      · exact h
    · rw [jsGet_revertStep_ne index j i cs hji]
      exact h

theorem jsGet_revertEmpties_keep (index : Nat) (sel : List Nat) (cs : Chars) (i : Nat)
    (c : Character) (hc : jsGet cs i = some c) (hne : isEmptyContent c = false) :
    jsGet (revertEmpties index sel cs) i = some c := by
  induction sel generalizing cs with
  | nil => exact hc
  | cons j js ih =>
    show jsGet (revertEmpties index js _) i = some c
    by_cases hji : j = i
    · subst hji
      apply ih
      dsimp only
      split
      · rw [hc]
        dsimp only
        rw [if_neg (by simp [hne])]
        exact hc
      · exact hc
    · apply ih
      rw [jsGet_revertStep_ne index j i cs hji]
      exact hc

theorem jsGet_revertEmpties_cleared (index : Nat) (sel : List Nat) (cs : Chars) (i : Nat)
    (c : Character) (hi : i ∈ sel) (hne : i ≠ index) (hc : jsGet cs i = some c)
    (he : isEmptyContent c = true) : jsGet (revertEmpties index sel cs) i = none := by
  induction sel generalizing cs with
  | nil => cases hi
  | cons j js ih =>
    show jsGet (revertEmpties index js _) i = none
    by_cases hji : j = i
    · subst hji
      apply jsGet_revertEmpties_none
      dsimp only
      rw [if_pos hne, hc]
      dsimp only
      rw [if_pos he]
      exact jsGet_set_self cs j none (lt_length_of_jsGet_eq_some hc)
    · have hi2 : i ∈ js := by
        rcases List.mem_cons.mp hi with rfl | h
        · exact absurd rfl hji
        · exact h
      refine ih _ hi2 ?_
      rw [jsGet_revertStep_ne index j i cs hji]
      exact hc

theorem jsGet_clearSources_untouched (d : List Int) (ms : List (Nat × Int)) (cs : Chars)
    (i : Nat) (h : ∀ m ∈ ms, m.1 = i → (i : Int) ∈ d) :
    jsGet (clearSources d ms cs) i = jsGet cs i := by
  induction ms generalizing cs with
  | nil => rfl
  | cons m ms2 ih =>
    show jsGet (clearSources d ms2 _) i = _
    rw [ih _ fun m2 hm2 => h m2 (List.mem_cons_of_mem m hm2)]
    dsimp only
    split
    · rfl
    · next hnd =>
      apply jsGet_set_ne
      intro he
      exact hnd (he ▸ h m (List.mem_cons_self m ms2) he)

theorem jsGet_clearSources_none (d : List Int) (ms : List (Nat × Int)) (cs : Chars) (i : Nat)
    (h : jsGet cs i = none) : jsGet (clearSources d ms cs) i = none := by
  induction ms generalizing cs with
  | nil => exact h
  | cons m ms2 ih =>
    show jsGet (clearSources d ms2 _) i = none
    apply ih
    dsimp only
    split
    · exact h
    · by_cases hmi : m.1 = i
      · subst hmi
        cases hlen : Nat.lt_or_ge m.1 cs.length with
        | inl hl => exact jsGet_set_self cs m.1 none hl
        | inr hr => rw [List.set_eq_of_length_le hr]; exact h
      · rw [jsGet_set_ne cs m.1 i none hmi]
        exact h

theorem jsGet_clearSources_cleared (d : List Int) (ms : List (Nat × Int)) (cs : Chars) (i : Nat)
    (hm : ∃ m ∈ ms, m.1 = i) (hd : (i : Int) ∉ d) (hlen : i < cs.length) :
    jsGet (clearSources d ms cs) i = none := by
  induction ms generalizing cs with
  | nil => rcases hm with ⟨m, hmm, _⟩; cases hmm
  | cons m ms2 ih =>
    show jsGet (clearSources d ms2 _) i = none
    rcases hm with ⟨m2, hm2, hm2i⟩
    rcases List.mem_cons.mp hm2 with rfl | htail
    · apply jsGet_clearSources_none
      dsimp only
      rw [hm2i, if_neg hd]
      exact jsGet_set_self cs i none hlen
    · dsimp only
      split
      · exact ih cs ⟨m2, htail, hm2i⟩ hlen
      · by_cases hmi : m.1 = i
        · subst hmi
          apply jsGet_clearSources_none
          exact jsGet_set_self cs m.1 none hlen
        · exact ih _ ⟨m2, htail, hm2i⟩ (by rw [List.length_set]; exact hlen)

theorem jsGet_placeChars_untouched (ws : List (Nat × Option Character)) (cs : Chars) (i : Nat)
    (h : ∀ w ∈ ws, w.1 ≠ i) : jsGet (placeChars ws cs) i = jsGet cs i := by
  induction ws generalizing cs with
  | nil => rfl
  | cons w ws2 ih =>
    show jsGet (placeChars ws2 _) i = _
    rw [ih _ fun w2 hw2 => h w2 (List.mem_cons_of_mem w hw2)]
    exact jsGet_set_ne cs w.1 i w.2 (h w (List.mem_cons_self w ws2))

theorem jsGet_placeChars_write (ws : List (Nat × Option Character)) (cs : Chars) (i : Nat)
    (v : Option Character) (hn : (ws.map Prod.fst).Nodup) (hw : (i, v) ∈ ws)
    (hlen : i < cs.length) : jsGet (placeChars ws cs) i = v := by
  induction ws generalizing cs with
  | nil => cases hw
  | cons w ws2 ih =>
    show jsGet (placeChars ws2 _) i = v
    rcases List.mem_cons.mp hw with rfl | htail
    · have hnot : ∀ w2 ∈ ws2, w2.1 ≠ i := by
        intro w2 hw2 he
        have : i ∈ ws2.map Prod.fst := he ▸ List.mem_map_of_mem Prod.fst hw2
        exact (List.nodup_cons.mp hn).1 this
      rw [jsGet_placeChars_untouched ws2 _ i hnot]
      exact jsGet_set_self cs i v hlen
    · have hwi : w.1 ≠ i := by
        intro he
        have : i ∈ ws2.map Prod.fst := List.mem_map_of_mem Prod.fst htail
        exact (List.nodup_cons.mp hn).1 (he ▸ this)
      exact ih _ (List.nodup_cons.mp hn).2 htail (by rw [List.length_set]; exact hlen)

theorem jsGet_placePastes_untouched (ps : List (Int × Character)) (cs : Chars) (i : Nat)
    (h : ∀ p ∈ ps, p.1.toNat ≠ i) : jsGet (placePastes ps cs) i = jsGet cs i := by
  induction ps generalizing cs with
  | nil => rfl
  | cons p ps2 ih =>
    show jsGet (placePastes ps2 _) i = _
    rw [ih _ fun p2 hp2 => h p2 (List.mem_cons_of_mem p hp2)]
    exact jsGet_set_ne cs p.1.toNat i _ (h p (List.mem_cons_self p ps2))

theorem jsGet_placePastes_write (ps : List (Int × Character)) (cs : Chars) (i : Nat)
    (c : Character) (hn : (ps.map (fun p => p.1.toNat)).Nodup)
    (hp : ∃ d, ((d : Int), c) ∈ ps ∧ d.toNat = i) (hlen : i < cs.length) :
    jsGet (placePastes ps cs) i = some (copyOf c) := by
  induction ps generalizing cs with
  | nil => rcases hp with ⟨d, hd, _⟩; cases hd
  | cons p ps2 ih =>
    show jsGet (placePastes ps2 _) i = _
    rcases hp with ⟨d, hd, hdi⟩
    rcases List.mem_cons.mp hd with rfl | htail
    · have hnot : ∀ p2 ∈ ps2, p2.1.toNat ≠ i := by
        intro p2 hp2 he
        have hmem : p2.1.toNat ∈ ps2.map (fun p => p.1.toNat) :=
          List.mem_map_of_mem (fun p => p.1.toNat) hp2
        rw [he, ← hdi] at hmem
        exact (List.nodup_cons.mp hn).1 hmem
      rw [jsGet_placePastes_untouched ps2 _ i hnot]
      dsimp only
      rw [← hdi]
      exact jsGet_set_self cs d.toNat _ (hdi ▸ hlen)
    · have hwi : p.1.toNat ≠ i := by
        intro he
        have hmem : d.toNat ∈ ps2.map (fun p2 => p2.1.toNat) :=
          List.mem_map_of_mem (fun p2 => p2.1.toNat) htail
        rw [hdi, ← he] at hmem
        exact (List.nodup_cons.mp hn).1 hmem
      exact ih _ (List.nodup_cons.mp hn).2 ⟨d, htail, hdi⟩ (by rw [List.length_set]; exact hlen)

/-! Characterisation of the load fill loop. -/

theorem fillChars_cons (n : Nat) (e : Option RawChar) (rest : List (Option RawChar))
    (acc : LChars) :
    fillChars n (e :: rest) acc =
      fillChars (n + 1) rest
        (if n < 256 then
          match e with
          | some c => acc.set n (some (normalizeChar c))
          | none => acc
        else acc) := rfl

theorem fillStep_length (n : Nat) (e : Option RawChar) (acc : LChars) :
    (if n < 256 then
      match e with
      | some c => acc.set n (some (normalizeChar c))
      | none => acc
    else acc).length = acc.length := by
  split
  · cases e with
    | some c => simp [List.length_set]
    | none => rfl
  · rfl

theorem jsGetL_fillStep_ne (n : Nat) (e : Option RawChar) (acc : LChars) (i : Nat) (h : n ≠ i) :
    jsGetL
      (if n < 256 then
        match e with
        | some c => acc.set n (some (normalizeChar c))
        | none => acc
      else acc) i = jsGetL acc i := by
  split
  · cases e with
    | some c => exact jsGetL_set_ne acc n i _ h
    | none => rfl
  · rfl

theorem jsGetL_fillChars_lt (es : List (Option RawChar)) (n : Nat) (acc : LChars) (i : Nat)
    (h : i < n) : jsGetL (fillChars n es acc) i = jsGetL acc i := by
  induction es generalizing n acc with
  | nil => rfl
  | cons e rest ih =>
    rw [fillChars_cons, ih _ _ (by omega)]
    exact jsGetL_fillStep_ne n e acc i (by omega)

theorem jsGetL_fillChars_eq (es : List (Option RawChar)) (n : Nat) (acc : LChars) (i : Nat)
    (hn : n ≤ i) (hacc : acc.length = 256) :
    jsGetL (fillChars n es acc) i =
      match es[(i - n)]? with
      | some (some e) => if i < 256 then some (normalizeChar e) else jsGetL acc i
      | some none => jsGetL acc i
      | none => jsGetL acc i := by
  induction es generalizing n acc with
  | nil => rfl
  | cons e rest ih =>
    rw [fillChars_cons]
    by_cases hni : n = i
    · subst hni
      rw [jsGetL_fillChars_lt rest (n + 1) _ n (by omega)]
      rw [Nat.sub_self, List.getElem?_cons_zero]
      cases e with
      | some c =>
        dsimp only
        split
        · exact jsGetL_set_self acc n _ (by omega)
        · rfl
      | none =>
        dsimp only
        split
        · rfl
        · rfl
    · rw [ih _ _ (by omega) (by rw [fillStep_length]; exact hacc)]
      rw [jsGetL_fillStep_ne n e acc i hni]
      have hidx : i - n = (i - (n + 1)) + 1 := by omega
      rw [hidx, List.getElem?_cons_succ]

theorem jsGetL_replicate_none (i : Nat) : jsGetL (List.replicate 256 none) i = none := by
  rw [jsGetL, List.getD_eq_getElem?_getD, List.getElem?_replicate]
  split
  · rfl
  · rfl

/-! Support lemmas for the reorder characterisation. -/

theorem mem_reorderMoves {selected : List Nat} {off : Int} {m : Nat × Int} :
    m ∈ reorderMoves selected off ↔ m.1 ∈ selected ∧ m.2 = (m.1 : Int) + off := by
  rw [reorderMoves, List.mem_map]
  constructor
  · rintro ⟨s, hs, rfl⟩
    exact ⟨mem_sortAsc.mp hs, rfl⟩
  · rintro ⟨h1, h2⟩
    refine ⟨m.1, mem_sortAsc.mpr h1, ?_⟩
    cases m with
    | mk a b => simpa using h2.symm

theorem setOfList_nodup (l : List Nat) : (setOfList l).Nodup := by
  have haux : ∀ (l2 acc : List Nat), acc.Nodup → (l2.foldl setAdd acc).Nodup := by
    intro l2
    induction l2 with
    | nil => intro acc h; exact h
    | cons y ys ih =>
      intro acc h
      rw [List.foldl_cons]
      apply ih
      rw [setAdd]
      split
      · exact h
      · next hy =>
        rw [List.nodup_append]
        refine ⟨h, List.nodup_singleton y, ?_⟩
        intro a ha hay
        rw [List.mem_singleton] at hay
        exact hy (hay ▸ ha)
  exact haux l [] List.nodup_nil

theorem reorderMoves_any_false {selected : List Nat} {off : Int}
    (hin : ∀ s ∈ selected, 0 ≤ (s : Int) + off ∧ (s : Int) + off < 256) :
    (reorderMoves selected off).any (fun m => m.2 < 0 ∨ 256 ≤ m.2) = false := by
  rw [List.any_eq_false]
  intro m hm
  rcases mem_reorderMoves.mp hm with ⟨h1, h2⟩
  have := hin m.1 h1
  simp only [decide_eq_true_eq]
  omega

theorem handleReorder_chars_eq (font : Font) (sel : Selection) (f t : Int)
    (hne : f ≠ t) (ht0 : 0 ≤ t) (ht1 : t < 256)
    (hin : ∀ s ∈ sel.selected, 0 ≤ (s : Int) + (t - f) ∧ (s : Int) + (t - f) < 256) :
    (handleReorder f t font sel).1.characters =
      placeChars ((reorderMoves sel.selected (t - f)).map
          (fun m => (m.2.toNat, jsGet font.characters m.1)))
        (clearSources ((reorderMoves sel.selected (t - f)).map (fun m => m.2))
          (reorderMoves sel.selected (t - f)) font.characters) := by
  simp only [handleReorder, if_neg hne, if_neg (by omega : ¬(t < 0 ∨ 256 ≤ t)),
    reorderMoves_any_false hin, Bool.false_eq_true, if_false]

theorem reorder_writes (font : Font) (sel : Selection) (f t : Int)
    (hne : f ≠ t) (ht0 : 0 ≤ t) (ht1 : t < 256) (h256 : font.characters.length = 256)
    (hnd : sel.selected.Nodup)
    (hin : ∀ s ∈ sel.selected, 0 ≤ (s : Int) + (t - f) ∧ (s : Int) + (t - f) < 256)
    (s : Nat) (hs : s ∈ sel.selected) :
    jsGet (handleReorder f t font sel).1.characters ((s : Int) + (t - f)).toNat =
      jsGet font.characters s := by
  rw [handleReorder_chars_eq font sel f t hne ht0 ht1 hin]
  apply jsGet_placeChars_write
  · rw [List.map_map]
    have heq : (Prod.fst ∘ fun m : Nat × Int => (m.2.toNat, jsGet font.characters m.1)) =
        fun m : Nat × Int => m.2.toNat := rfl
    rw [heq, reorderMoves, List.map_map]
    refine List.Nodup.map_on ?_ (sortAsc_nodup hnd)
    intro x hx y hy hxy
    have hxm := hin x (mem_sortAsc.mp hx)
    have hym := hin y (mem_sortAsc.mp hy)
    simp only [Function.comp] at hxy
    omega
  · rw [List.mem_map]
    exact ⟨(s, (s : Int) + (t - f)), mem_reorderMoves.mpr ⟨hs, rfl⟩, rfl⟩
  · rw [length_clearSources, h256]
    have := hin s hs
    omega

theorem reorder_clears (font : Font) (sel : Selection) (f t : Int)
    (hne : f ≠ t) (ht0 : 0 ≤ t) (ht1 : t < 256) (h256 : font.characters.length = 256)
    (hin : ∀ s ∈ sel.selected, 0 ≤ (s : Int) + (t - f) ∧ (s : Int) + (t - f) < 256)
    (s : Nat) (hs : s ∈ sel.selected) (hslt : s < 256)
    (hnotdst : ∀ s2 ∈ sel.selected, (s : Int) ≠ (s2 : Int) + (t - f)) :
    jsGet (handleReorder f t font sel).1.characters s = none := by
  rw [handleReorder_chars_eq font sel f t hne ht0 ht1 hin]
  rw [jsGet_placeChars_untouched]
  · apply jsGet_clearSources_cleared
    · exact ⟨(s, (s : Int) + (t - f)), mem_reorderMoves.mpr ⟨hs, rfl⟩, rfl⟩
    · intro hmem
      rw [List.mem_map] at hmem
      rcases hmem with ⟨m, hm, hms⟩
      rcases mem_reorderMoves.mp hm with ⟨hm1, hm2⟩
      exact hnotdst m.1 hm1 (by rw [← hms, hm2])
    · rw [h256]
      exact hslt
  · intro w hw
    rw [List.mem_map] at hw
    rcases hw with ⟨m, hm, rfl⟩
    rcases mem_reorderMoves.mp hm with ⟨hm1, hm2⟩
    intro he
    have h0 : 0 ≤ m.2 := hm2 ▸ (hin m.1 hm1).1
    exact hnotdst m.1 hm1 (by rw [← hm2]; omega)

theorem reorder_untouched (font : Font) (sel : Selection) (f t : Int)
    (hne : f ≠ t) (ht0 : 0 ≤ t) (ht1 : t < 256)
    (hin : ∀ s ∈ sel.selected, 0 ≤ (s : Int) + (t - f) ∧ (s : Int) + (t - f) < 256)
    (i : Nat) (hns : i ∉ sel.selected)
    (hnotdst : ∀ s2 ∈ sel.selected, (i : Int) ≠ (s2 : Int) + (t - f)) :
    jsGet (handleReorder f t font sel).1.characters i = jsGet font.characters i := by
  rw [handleReorder_chars_eq font sel f t hne ht0 ht1 hin]
  rw [jsGet_placeChars_untouched]
  · apply jsGet_clearSources_untouched
    intro m hm hmi
    rcases mem_reorderMoves.mp hm with ⟨hm1, _⟩
    exact absurd (hmi ▸ hm1) hns
  · intro w hw
    rw [List.mem_map] at hw
    rcases hw with ⟨m, hm, rfl⟩
    rcases mem_reorderMoves.mp hm with ⟨hm1, hm2⟩
    intro he
    have h0 : 0 ≤ m.2 := hm2 ▸ (hin m.1 hm1).1
    exact hnotdst m.1 hm1 (by rw [← hm2]; omega)

theorem reorder_selection (font : Font) (sel : Selection) (f t : Int)
    (hne : f ≠ t) (ht0 : 0 ≤ t) (ht1 : t < 256)
    (hin : ∀ s ∈ sel.selected, 0 ≤ (s : Int) + (t - f) ∧ (s : Int) + (t - f) < 256) :
    (handleReorder f t font sel).2 =
      ⟨clampIdx ((sel.anchor : Int) + (t - f)),
       setOfList ((reorderMoves sel.selected (t - f)).map (fun m => m.2.toNat))⟩ := by
  simp only [handleReorder, if_neg hne, if_neg (by omega : ¬(t < 0 ∨ 256 ≤ t)),
    reorderMoves_any_false hin, Bool.false_eq_true, if_false]

theorem mem_reorder_selected {selected : List Nat} {off : Int} {i : Nat} :
    i ∈ setOfList ((reorderMoves selected off).map (fun m => m.2.toNat)) ↔
      ∃ s ∈ selected, i = ((s : Int) + off).toNat := by
  rw [mem_setOfList, List.mem_map]
  constructor
  · rintro ⟨m, hm, rfl⟩
    rcases mem_reorderMoves.mp hm with ⟨h1, h2⟩
    exact ⟨m.1, h1, by rw [h2]⟩
  · rintro ⟨s, hs, rfl⟩
    exact ⟨(s, (s : Int) + off), mem_reorderMoves.mpr ⟨hs, rfl⟩, rfl⟩

theorem length_handleReorder (f t : Int) (font : Font) (sel : Selection) :
    (handleReorder f t font sel).1.characters.length = font.characters.length := by
  simp only [handleReorder]
  split
  · rfl
  · split
    · rfl
    · split
      · rfl
      · simp only [length_placeChars, length_clearSources]

/-! Abort behaviour of move / copy-drag / paste on out-of-range destinations. -/

theorem handleReorder_abort (font : Font) (sel : Selection) (f t : Int)
    (h : ∃ s ∈ sel.selected, (s : Int) + (t - f) < 0 ∨ 256 ≤ (s : Int) + (t - f)) :
    handleReorder f t font sel = (font, sel) := by
  by_cases h1 : f = t
  · rw [handleReorder, if_pos h1]
  · by_cases h2 : t < 0 ∨ 256 ≤ t
    · rw [handleReorder, if_neg h1, if_pos h2]
    · have hany : (reorderMoves sel.selected (t - f)).any
          (fun m => m.2 < 0 ∨ 256 ≤ m.2) = true := by
        rcases h with ⟨s, hs, hout⟩
        rw [List.any_eq_true]
        refine ⟨(s, (s : Int) + (t - f)), mem_reorderMoves.mpr ⟨hs, rfl⟩, ?_⟩
        simp only [decide_eq_true_eq]
        omega
      simp only [handleReorder, if_neg h1, if_neg h2, hany]
      exact if_pos trivial

theorem handleCopyCharacter_abort (font : Font) (sel : Selection) (f t : Int)
    (h : ∃ s ∈ sel.selected, (s : Int) + (t - f) < 0 ∨ 256 ≤ (s : Int) + (t - f)) :
    handleCopyCharacter f t font sel = (font, sel) := by
  by_cases h1 : f = t
  · rw [handleCopyCharacter, if_pos h1]
  · by_cases h2 : t < 0 ∨ 256 ≤ t
    · rw [handleCopyCharacter, if_neg h1, if_pos h2]
    · have hany : (reorderMoves sel.selected (t - f)).any
          (fun m => m.2 < 0 ∨ 256 ≤ m.2) = true := by
        rcases h with ⟨s, hs, hout⟩
        rw [List.any_eq_true]
        refine ⟨(s, (s : Int) + (t - f)), mem_reorderMoves.mpr ⟨hs, rfl⟩, ?_⟩
        simp only [decide_eq_true_eq]
        omega
      simp only [handleCopyCharacter, if_neg h1, if_neg h2, hany]
      exact if_pos trivial

theorem handlePaste_abort (font : Font) (sel : Selection) (cb : Clipboard)
    (h : ∃ e ∈ cb.characters,
      (sel.anchor : Int) + e.offset < 0 ∨ 256 ≤ (sel.anchor : Int) + e.offset) :
    handlePaste font sel (some cb) = (font, sel) := by
  by_cases h1 : cb.characters.length = 0
  · simp only [handlePaste, if_pos h1]
  · have hany : (cb.characters.map
        (fun item => ((sel.anchor : Int) + item.offset, item.char))).any
        (fun p => p.1 < 0 ∨ 256 ≤ p.1) = true := by
      rcases h with ⟨e, he, hout⟩
      rw [List.any_eq_true]
      refine ⟨((sel.anchor : Int) + e.offset, e.char),
        List.mem_map_of_mem _ he, ?_⟩
      simp only [decide_eq_true_eq]
      omega
    simp only [handlePaste, if_neg h1, hany]
    exact if_pos trivial

/-! Length preservation of every operation (the 256-slot invariant). -/

theorem length_handleSelectFont (index : Nat) (shift : Bool) (font : Font) (sel : Selection) :
    (handleSelectFont index shift font sel).characters.length = font.characters.length := by
  simp only [handleSelectFont]
  split
  · rw [List.length_set, length_revertEmpties]
  · rw [length_revertEmpties]

theorem length_handleCopyCharacter (f t : Int) (font : Font) (sel : Selection) :
    (handleCopyCharacter f t font sel).1.characters.length = font.characters.length := by
  simp only [handleCopyCharacter]
  split
  · rfl
  · split
    · rfl
    · split
      · rfl
      · simp only [length_placeCopies]

theorem length_handlePaste (font : Font) (sel : Selection) (clip : Option Clipboard) :
    (handlePaste font sel clip).1.characters.length = font.characters.length := by
  cases clip with
  | none => rfl
  | some cb =>
    simp only [handlePaste]
    split
    · rfl
    · split
      · rfl
      · simp only [length_placePastes]

theorem length_handleCopyFrom (i : Nat) (font : Font) (sel : Selection) :
    (handleCopyFrom i font sel).characters.length = font.characters.length := by
  rw [handleCopyFrom]
  rcases hq : jsGet font.characters i with _ | c
  · rfl
  · simp only [List.length_set]

theorem length_handleArrowKey (key : ArrowKey) (sh : Bool) (font : Font) (sel : Selection) :
    (handleArrowKey key sh font sel).1.characters.length = font.characters.length := by
  simp only [handleArrowKey, handleSelect]
  split
  · exact length_handleSelectFont _ _ _ _
  · rfl

theorem length_createEmptyFont (name : String) :
    (createEmptyFont name).characters.length = 256 := by
  rw [createEmptyFont]
  rw [List.length_set, List.length_replicate]

theorem length_loadChars (raw : Option (List (Option RawChar))) :
    (loadChars raw).length = 256 := by
  simp only [loadChars]
  cases raw with
  | none =>
    split
    · rw [List.length_set, List.length_replicate]
    · rw [List.length_replicate]
  | some entries =>
    split
    · rw [List.length_set, length_fillChars, List.length_replicate]
    · rw [length_fillChars, List.length_replicate]

/-! The select transition keeps the anchor inside the selected set, in all but
the exempted cases. -/

theorem handleSelectSel_anchor_mem (index : Nat) (shift ctrl : Bool) (prev : Selection)
    (hprev : prev.anchor ∈ prev.selected)
    (hexc : ¬(shift = false ∧ ctrl = true ∧ index ∈ prev.selected ∧ index ≠ prev.anchor)) :
    (handleSelectSel index shift ctrl prev).anchor ∈
      (handleSelectSel index shift ctrl prev).selected := by
  rw [handleSelectSel]
  split
  · exact anchor_mem_createSelectionRange prev.anchor index
  · next hshift =>
    split
    · next hctrl =>
      split
      · next hmem =>
        split
        · rcases hdel : setDelete prev.selected index with _ | ⟨first, rest⟩
          · exact List.mem_singleton_self index
          · exact List.mem_cons_self first rest
        · next hne2 =>
          refine absurd ⟨?_, ?_, hmem, hne2⟩ hexc
          · revert hshift
            cases shift <;> simp
          · revert hctrl
            cases ctrl <;> simp
      · next hnmem =>
        exact List.mem_append_right prev.selected (List.mem_singleton_self index)
    · exact List.mem_singleton_self index

theorem revertEmpties_eq_self (index : Nat) (sel : List Nat) (cs : Chars)
    (h : ∀ i ∈ sel, i ≠ index → ∀ c, jsGet cs i = some c → isEmptyContent c = false) :
    revertEmpties index sel cs = cs := by
  induction sel with
  | nil => rfl
  | cons j js ih =>
    show revertEmpties index js _ = cs
    have hstep :
        (if j ≠ index then
          match jsGet cs j with
          | some c => if isEmptyContent c then cs.set j none else cs
          | none => cs
        else cs) = cs := by
      split
      · next hji =>
        rcases hq : jsGet cs j with _ | c
        · rfl
        · dsimp only
          rw [h j (List.mem_cons_self j js) hji c hq]
          simp
      · rfl
    show revertEmpties index js
        (if j ≠ index then
          match jsGet cs j with
          | some c => if isEmptyContent c then cs.set j none else cs
          | none => cs
        else cs) = cs
    rw [hstep]
    exact ih fun i hi => h i (List.mem_cons_of_mem j hi)

/-! Equational form of a valid paste, and anchor membership after each
operation. -/

theorem paste_any_false {anchor : Nat} {cb : Clipboard}
    (hin : ∀ e ∈ cb.characters,
      0 ≤ (anchor : Int) + e.offset ∧ (anchor : Int) + e.offset < 256) :
    (cb.characters.map (fun item => ((anchor : Int) + item.offset, item.char))).any
      (fun p => p.1 < 0 ∨ 256 ≤ p.1) = false := by
  rw [List.any_eq_false]
  intro p hp
  rw [List.mem_map] at hp
  rcases hp with ⟨e, he, rfl⟩
  have := hin e he
  simp only [decide_eq_true_eq]
  omega

theorem handlePaste_chars_eq (font : Font) (sel : Selection) (cb : Clipboard)
    (hne : cb.characters ≠ [])
    (hin : ∀ e ∈ cb.characters,
      0 ≤ (sel.anchor : Int) + e.offset ∧ (sel.anchor : Int) + e.offset < 256) :
    (handlePaste font sel (some cb)).1.characters =
      placePastes
        (cb.characters.map (fun item => ((sel.anchor : Int) + item.offset, item.char)))
        font.characters := by
  simp only [handlePaste, if_neg (fun h0 => hne (List.length_eq_zero.mp h0)),
    paste_any_false hin, Bool.false_eq_true, if_false]

theorem handlePaste_sel_eq (font : Font) (sel : Selection) (cb : Clipboard)
    (hne : cb.characters ≠ [])
    (hin : ∀ e ∈ cb.characters,
      0 ≤ (sel.anchor : Int) + e.offset ∧ (sel.anchor : Int) + e.offset < 256) :
    (handlePaste font sel (some cb)).2 =
      ⟨sel.anchor,
       setOfList ((cb.characters.map
          (fun item => ((sel.anchor : Int) + item.offset, item.char))).map
          (fun p => p.1.toNat))⟩ := by
  simp only [handlePaste, if_neg (fun h0 => hne (List.length_eq_zero.mp h0)),
    paste_any_false hin, Bool.false_eq_true, if_false]

theorem handleReorder_snd_anchorOk (f t : Int) (font : Font) (sel : Selection)
    (h : sel.anchor ∈ sel.selected) :
    (handleReorder f t font sel).2.anchor ∈ (handleReorder f t font sel).2.selected := by
  simp only [handleReorder]
  split
  · exact h
  · split
    · exact h
    · split
      · exact h
      · next hany =>
        have hmem : (sel.anchor, (sel.anchor : Int) + (t - f)) ∈
            reorderMoves sel.selected (t - f) := mem_reorderMoves.mpr ⟨h, rfl⟩
        have hrange :
            ¬((sel.anchor : Int) + (t - f) < 0 ∨ 256 ≤ (sel.anchor : Int) + (t - f)) := by
          intro hcon
          exact hany (List.any_eq_true.mpr ⟨_, hmem, decide_eq_true hcon⟩)
        push_neg at hrange
        dsimp only
        rw [clampIdx_eq_toNat hrange.1 (by omega), mem_reorder_selected]
        exact ⟨sel.anchor, h, rfl⟩

theorem handleCopyCharacter_snd_anchorOk (f t : Int) (font : Font) (sel : Selection)
    (h : sel.anchor ∈ sel.selected) :
    (handleCopyCharacter f t font sel).2.anchor ∈
      (handleCopyCharacter f t font sel).2.selected := by
  simp only [handleCopyCharacter]
  split
  · exact h
  · split
    · exact h
    · split
      · exact h
      · next hany =>
        have hmem : (sel.anchor, (sel.anchor : Int) + (t - f)) ∈
            reorderMoves sel.selected (t - f) := mem_reorderMoves.mpr ⟨h, rfl⟩
        have hrange :
            ¬((sel.anchor : Int) + (t - f) < 0 ∨ 256 ≤ (sel.anchor : Int) + (t - f)) := by
          intro hcon
          exact hany (List.any_eq_true.mpr ⟨_, hmem, decide_eq_true hcon⟩)
        push_neg at hrange
        dsimp only
        rw [clampIdx_eq_toNat hrange.1 (by omega), mem_reorder_selected]
        exact ⟨sel.anchor, h, rfl⟩

theorem handlePaste_snd_anchorOk (font : Font) (sel : Selection) (clip : Option Clipboard)
    (h : sel.anchor ∈ sel.selected)
    (hk : match clip with
      | none => True
      | some cb => cb.characters = [] ∨ (0 : Int) ∈ cb.characters.map ClipEntry.offset) :
    (handlePaste font sel clip).2.anchor ∈ (handlePaste font sel clip).2.selected := by
  cases clip with
  | none => exact h
  | some cb =>
    simp only [handlePaste]
    split
    · exact h
    · next hlen =>
      split
      · exact h
      · dsimp only
        rcases hk with hk | hk
        · exact absurd (by rw [hk]; rfl) hlen
        · rw [List.mem_map] at hk
          rcases hk with ⟨e, he, he0⟩
          rw [mem_setOfList, List.map_map, List.mem_map]
          refine ⟨e, he, ?_⟩
          show ((sel.anchor : Int) + e.offset).toNat = sel.anchor
          rw [he0]
          omega

/-! Clipboard snapshot membership and the copy-selection equations. -/

theorem mem_clipSnapshot {font : Font} {sel : Selection} {off : Int} {c : Character} :
    (⟨off, c⟩ : ClipEntry) ∈ clipSnapshot font sel ↔
      ∃ idx ∈ sel.selected, jsGet font.characters idx = some c ∧
        off = (idx : Int) - (sel.anchor : Int) := by
  rw [clipSnapshot, List.mem_filterMap]
  constructor
  · rintro ⟨idx, hidx, hsome⟩
    rcases hq : jsGet font.characters idx with _ | c2
    · rw [hq] at hsome
      exact absurd hsome (by simp)
    · rw [hq] at hsome
      dsimp only at hsome
      rw [Option.some_inj] at hsome
      have hoffeq := congrArg ClipEntry.offset hsome
      have hchar := congrArg ClipEntry.char hsome
      dsimp only at hoffeq hchar
      refine ⟨idx, mem_sortAsc.mp hidx, ?_, hoffeq.symm⟩
      rw [hq, hchar]
  · rintro ⟨idx, hidx, hc, rfl⟩
    refine ⟨idx, mem_sortAsc.mpr hidx, ?_⟩
    rw [hc]

theorem handleCopySelection_empty (font : Font) (sel : Selection) (clip : Option Clipboard)
    (h : clipSnapshot font sel = []) : handleCopySelection font sel clip = clip := by
  simp only [handleCopySelection, h, List.length_nil]
  rw [if_neg (by omega)]

theorem handleCopySelection_nonempty (font : Font) (sel : Selection) (clip : Option Clipboard)
    (h : clipSnapshot font sel ≠ []) :
    handleCopySelection font sel clip = some ⟨clipSnapshot font sel⟩ := by
  simp only [handleCopySelection]
  rw [if_pos (List.length_pos.mpr h)]

/-! The claims. -/

/-- Claim C1 (corrected, amended form): after every selection transition and
every edit operation the anchor remains a member of the selected set, except
(a) ctrl-toggle removal of a selected non-anchor index, where the anchor
becomes the just-removed index, and (b) paste from a clipboard holding no entry
with offset 0, where the unchanged anchor need not be among the pasted
destinations.  Mid-ctrl-toggle removal of the anchor itself still reassigns the
anchor before the transition completes. -/
theorem C1_anchor_mem_selected :
    ∀ (s : State) (op : Op), anchorOk s → opKeepsAnchor op s → anchorOk (applyOp op s) := by
  intro s op h hk
  cases op with
  | select index shift ctrl => exact handleSelectSel_anchor_mem index shift ctrl s.sel h hk
  | reorder f t => exact handleReorder_snd_anchorOk f t s.font s.sel h
  | copyChar f t => exact handleCopyCharacter_snd_anchorOk f t s.font s.sel h
  | copySel => exact h
  | paste => exact handlePaste_snd_anchorOk s.font s.sel s.clip h hk
  | reset => exact h
  | copyFrom i => exact h
  | update c => exact h
  | arrow key sh =>
    show (handleArrowKey key sh s.font s.sel).2.anchor ∈
      (handleArrowKey key sh s.font s.sel).2.selected
    simp only [handleArrowKey]
    split
    · refine handleSelectSel_anchor_mem _ sh false s.sel h ?_
      rintro ⟨-, hcf, -⟩
      exact Bool.noConfusion hcf
    · exact h
  | newFont => exact List.mem_singleton_self 0

/-- Claim C1 counterexample: in the state with anchor 0 and selected set 0, 1,
a ctrl-click on the selected non-anchor index 1 removes 1 from the set but
makes 1 the new anchor, so the anchor is not a member of the selected set even
though the removed index was not the anchor. -/
theorem C1_counterexample :
    ¬ anchorOk (applyOp (.select 1 false true)
      ⟨createEmptyFont "Untitled Font", ⟨0, [0, 1]⟩, none⟩) := by
  decide

/-- Witness for C1 at a concrete plain-click transition. -/
theorem C1_anchor_mem_selected_witness :
    anchorOk (applyOp (.select 7 false false)
      ⟨createEmptyFont "Untitled Font", ⟨0, [0]⟩, none⟩) :=
  C1_anchor_mem_selected _ _ (by decide) (by decide)

/-- Claim C3 (confirmed): when any computed destination of move, copy-drag or
paste falls outside the range 0 to 255, the operation returns the document and
the selection completely unchanged — no partial mutation occurs. -/
theorem C3_out_of_range_abort :
    (∀ (font : Font) (sel : Selection) (f t : Int),
      (∃ s ∈ sel.selected, (s : Int) + (t - f) < 0 ∨ 256 ≤ (s : Int) + (t - f)) →
      handleReorder f t font sel = (font, sel)) ∧
    (∀ (font : Font) (sel : Selection) (f t : Int),
      (∃ s ∈ sel.selected, (s : Int) + (t - f) < 0 ∨ 256 ≤ (s : Int) + (t - f)) →
      handleCopyCharacter f t font sel = (font, sel)) ∧
    (∀ (font : Font) (sel : Selection) (cb : Clipboard),
      (∃ e ∈ cb.characters,
        (sel.anchor : Int) + e.offset < 0 ∨ 256 ≤ (sel.anchor : Int) + e.offset) →
      handlePaste font sel (some cb) = (font, sel)) :=
  ⟨handleReorder_abort, handleCopyCharacter_abort, handlePaste_abort⟩

/-- Witness for C3 at concrete out-of-range gestures. -/
theorem C3_out_of_range_abort_witness :
    handleReorder 0 200 fontABC ⟨0, [0, 100]⟩ = (fontABC, ⟨0, [0, 100]⟩) ∧
    handleCopyCharacter 0 200 fontABC ⟨0, [0, 100]⟩ = (fontABC, ⟨0, [0, 100]⟩) ∧
    handlePaste fontABC ⟨20, [20]⟩ (some ⟨[⟨250, ⟨1, none⟩⟩]⟩) = (fontABC, ⟨20, [20]⟩) :=
  ⟨C3_out_of_range_abort.1 fontABC ⟨0, [0, 100]⟩ 0 200 ⟨100, by decide, by decide⟩,
   C3_out_of_range_abort.2.1 fontABC ⟨0, [0, 100]⟩ 0 200 ⟨100, by decide, by decide⟩,
   C3_out_of_range_abort.2.2 fontABC ⟨20, [20]⟩ ⟨[⟨250, ⟨1, none⟩⟩]⟩
     ⟨⟨250, ⟨1, none⟩⟩, by decide, by decide⟩⟩

/-- Claim C6 (confirmed): the character table has length exactly 256 for fonts
built by createEmptyFont and handleLoadFont, and every engine operation with
in-range indices preserves that length, so no reachable document ever grows or
shrinks the table. -/
theorem C6_table_length :
    (∀ name, (createEmptyFont name).characters.length = 256) ∧
    (∀ data, (handleLoadFont data).characters.length = 256) ∧
    (∀ (op : Op) (s : State), opWellFormed s op → s.font.characters.length = 256 →
      (applyOp op s).font.characters.length = 256) := by
  refine ⟨length_createEmptyFont, fun data => length_loadChars data.characters, ?_⟩
  intro op s hwf h256
  cases op with
  | select index shift ctrl => exact (length_handleSelectFont index shift s.font s.sel).trans h256
  | reorder f t => exact (length_handleReorder f t s.font s.sel).trans h256
  | copyChar f t => exact (length_handleCopyCharacter f t s.font s.sel).trans h256
  | copySel => exact h256
  | paste => exact (length_handlePaste s.font s.sel s.clip).trans h256
  | reset => exact (length_resetChars s.sel.selected s.font.characters).trans h256
  | copyFrom i => exact (length_handleCopyFrom i s.font s.sel).trans h256
  | update c =>
    show (s.font.characters.set s.sel.anchor (some c)).length = 256
    rw [List.length_set]
    exact h256
  | arrow key sh => exact (length_handleArrowKey key sh s.font s.sel).trans h256
  | newFont => exact length_createEmptyFont _

/-- Witness for C6 at a concrete operation. -/
theorem C6_table_length_witness :
    (applyOp (.select 5 false false)
      ⟨createEmptyFont "Untitled Font", ⟨0, [0]⟩, none⟩).font.characters.length = 256 :=
  C6_table_length.2.2 (.select 5 false false) _ (by decide) (length_createEmptyFont _)

/-- Claim C9 (confirmed): a click-driven select first reverts every
empty-content slot of the previous selection other than the clicked index to
absent, and afterwards, when the modifier is not shift and the clicked slot is
absent, populates the clicked slot with segments 0 and no name. -/
theorem C9_select_coupling :
    ∀ (font : Font) (sel : Selection) (index : Nat) (shift ctrl : Bool),
      font.characters.length = 256 → index < 256 →
      (∀ i ∈ sel.selected, i ≠ index → ∀ c, jsGet font.characters i = some c →
        isEmptyContent c = true →
        jsGet (handleSelect index shift ctrl font sel).1.characters i = none) ∧
      (shift = false → jsGet font.characters index = none →
        jsGet (handleSelect index shift ctrl font sel).1.characters index = some ⟨0, none⟩) := by
  intro font sel index shift ctrl h256 hidx
  constructor
  · intro i hi hne c hc he
    show jsGet (handleSelectFont index shift font sel).characters i = none
    simp only [handleSelectFont]
    split
    · rw [jsGet_set_ne _ index i _ (Ne.symm hne)]
      exact jsGet_revertEmpties_cleared index sel.selected font.characters i c hi hne hc he
    · exact jsGet_revertEmpties_cleared index sel.selected font.characters i c hi hne hc he
  · intro hsh hnone
    show jsGet (handleSelectFont index shift font sel).characters index = some ⟨0, none⟩
    have h1 : jsGet (revertEmpties index sel.selected font.characters) index =
        jsGet font.characters index :=
      jsGet_revertEmpties_untouched index sel.selected font.characters index (Or.inl rfl)
    have hcond : (!shift &&
        (jsGet (revertEmpties index sel.selected font.characters) index).isNone) = true := by
      rw [hsh, h1, hnone]
      rfl
    simp only [handleSelectFont, hcond]
    rw [if_pos trivial]
    exact jsGet_set_self _ index _ (by rw [length_revertEmpties, h256]; exact hidx)

/-- Witness for C9: the empty-font scenario of the claim — selecting 5 with no
modifier populates slot 5 and reverts the previously selected empty slot 0. -/
theorem C9_select_coupling_witness :
    jsGet (handleSelect 5 false false (createEmptyFont "Untitled Font") ⟨0, [0]⟩).1.characters 5 =
      some ⟨0, none⟩ ∧
    jsGet (handleSelect 5 false false (createEmptyFont "Untitled Font") ⟨0, [0]⟩).1.characters 0 =
      none :=
  ⟨(C9_select_coupling (createEmptyFont "Untitled Font") ⟨0, [0]⟩ 5 false false
      (length_createEmptyFont _) (by decide)).2 rfl (by decide),
   (C9_select_coupling (createEmptyFont "Untitled Font") ⟨0, [0]⟩ 5 false false
      (length_createEmptyFont _) (by decide)).1 0 (by decide) (by decide) ⟨0, none⟩
      (by decide) (by decide)⟩

/-- Claim C10 (confirmed): with a defined source character, copy-segments-from
produces a defined character at the anchor whose segments equal the source
segments — keeping the previous name of the anchor slot, so no name when the
anchor slot was absent; all other slots are unchanged, and with an absent
source the document is unchanged. -/
theorem C10_copyFrom_spec :
    ∀ (font : Font) (sel : Selection) (fromIndex : Nat),
      font.characters.length = 256 → sel.anchor < 256 →
      (∀ c, jsGet font.characters fromIndex = some c →
        jsGet (handleCopyFrom fromIndex font sel).characters sel.anchor =
          some ⟨c.segments,
            match jsGet font.characters sel.anchor with
            | some old => old.name
            | none => none⟩ ∧
        ∀ i, i ≠ sel.anchor →
          jsGet (handleCopyFrom fromIndex font sel).characters i = jsGet font.characters i) ∧
      (jsGet font.characters fromIndex = none → handleCopyFrom fromIndex font sel = font) := by
  intro font sel fromIndex h256 hanch
  constructor
  · intro c hc
    constructor
    · simp only [handleCopyFrom]
      rw [hc]
      dsimp only
      exact jsGet_set_self _ _ _ (by rw [h256]; exact hanch)
    · intro i hne
      simp only [handleCopyFrom]
      rw [hc]
      dsimp only
      exact jsGet_set_ne _ _ _ _ (Ne.symm hne)
  · intro hc
    simp only [handleCopyFrom]
    rw [hc]

/-- Witness for C10: copying segments from the named slot 3 into the absent
anchor slot 9 creates a fresh unnamed character with the source segments. -/
theorem C10_copyFrom_spec_witness :
    jsGet (handleCopyFrom 3 fontSrc ⟨9, [9]⟩).characters 9 = some ⟨42, none⟩ := by
  have h := (C10_copyFrom_spec fontSrc ⟨9, [9]⟩ 3 (by decide) (by decide)).1
    ⟨42, some "S"⟩ (by decide)
  rw [h.1]
  decide

/-- Claim C4 (corrected, amended form): arrow-key navigation derives the
clamped next anchor (row stride 16, no wraparound, staying inside the grid) and
issues the very same handleSelect transition with ctrl unset — including its
document coupling, so the auto-revert of empty-content slots and the
auto-create of the target run for arrow-driven transitions exactly as for
clicks; the document is unchanged only in the benign case where the previous
selection holds no empty-content slot besides the target and either shift is
held or the target slot is already defined. -/
theorem C4_arrow_navigation :
    (∀ (key : ArrowKey) (shiftKey : Bool) (font : Font) (sel : Selection),
      arrowNext key sel.anchor ≠ sel.anchor →
      handleArrowKey key shiftKey font sel =
        handleSelect (arrowNext key sel.anchor) shiftKey false font sel) ∧
    (∀ (key : ArrowKey) (current : Nat), current < 256 → arrowNext key current < 256) ∧
    (∀ (key : ArrowKey) (shiftKey : Bool) (font : Font) (sel : Selection),
      (∀ i ∈ sel.selected, i ≠ arrowNext key sel.anchor →
        ∀ c, jsGet font.characters i = some c → isEmptyContent c = false) →
      (shiftKey = true ∨ jsGet font.characters (arrowNext key sel.anchor) ≠ none) →
      (handleArrowKey key shiftKey font sel).1 = font) := by
  refine ⟨?_, ?_, ?_⟩
  · intro key sh font sel hne
    simp only [handleArrowKey, if_pos hne]
  · intro key current h
    cases key <;> (simp only [arrowNext]; split <;> omega)
  · intro key sh font sel hrev hcreate
    simp only [handleArrowKey]
    split
    · show handleSelectFont (arrowNext key sel.anchor) sh font sel = font
      have hcond : ¬((!sh &&
          (jsGet font.characters (arrowNext key sel.anchor)).isNone) = true) := by
        rcases hcreate with rfl | hne2
        · simp
        · intro hcon
          rw [Bool.and_eq_true] at hcon
          exact hne2 (Option.isNone_iff_eq_none.mp hcon.2)
      simp only [handleSelectFont, revertEmpties_eq_self _ _ _ hrev, if_neg hcond]
    · rfl

/-- Claim C4 counterexample: on the empty font with anchor 0 selected, pressing
ArrowRight goes through handleSelect and so reverts the empty-content slot 0 to
absent (and creates slot 1) — an arrow-key transition does change the document
table, and the auto-revert runs for arrow-driven transitions too. -/
theorem C4_counterexample :
    jsGet (createEmptyFont "Untitled Font").characters 0 = some ⟨0, none⟩ ∧
    jsGet (handleArrowKey .right false (createEmptyFont "Untitled Font")
      ⟨0, [0]⟩).1.characters 0 = none := by
  decide

/-- Witness for C4 at concrete inputs. -/
theorem C4_arrow_navigation_witness :
    handleArrowKey .right false fontBB ⟨0, [0]⟩ =
      handleSelect 1 false false fontBB ⟨0, [0]⟩ ∧
    arrowNext .right 7 < 256 ∧
    (handleArrowKey .right false fontBB ⟨0, [0]⟩).1 = fontBB :=
  ⟨C4_arrow_navigation.1 .right false fontBB ⟨0, [0]⟩ (by decide),
   C4_arrow_navigation.2.1 .right 7 (by decide),
   C4_arrow_navigation.2.2 .right false fontBB ⟨0, [0]⟩
     (by
       intro i hi hne c hc
       rw [List.mem_singleton] at hi
       subst hi
       have hv : jsGet fontBB.characters 0 = some ⟨1, none⟩ := by decide
       rw [hv] at hc
       injection hc with hc2
       subst hc2
       decide)
     (Or.inr (by decide))⟩

/-- Claim C2 counterexample: selection 0, 1, 2 moved by offset 1 (move(0,1)).
The computed destination of source slot 0 is 1, which is itself one of the
moved sources, so by the claim slot 0 must not be cleared — and since 0 is no
destination of any source, the claim leaves the original character at slot 0.
The code nevertheless clears slot 0: it clears every source that is not itself
a destination, not every source whose destination is outside the sources. -/
theorem C2_counterexample :
    jsGet fontABC.characters 0 = some ⟨10, none⟩ ∧
    ((0 : Nat) + 1) ∈ [0, 1, 2] ∧
    (∀ s ∈ [0, 1, 2], (0 : Nat) ≠ s + 1) ∧
    jsGet (handleReorder 0 1 fontABC ⟨0, [0, 1, 2]⟩).1.characters 0 = none := by
  decide

/-- Claim C2 (corrected, amended form): a valid move clears exactly those
source slots that are not themselves computed destinations (source s is
cleared precisely when s differs from every source + offset); a slot that is
both a source and the destination of another source is not cleared but
receives that source character unchanged — afterwards each moved character
(same segments and name) sits at its destination, and slots that are neither
sources nor destinations are unchanged. -/
theorem C2_move_spec :
    ∀ (font : Font) (sel : Selection) (f t : Int),
      f ≠ t → 0 ≤ t → t < 256 → font.characters.length = 256 →
      sel.selected.Nodup → (∀ s ∈ sel.selected, s < 256) →
      (∀ s ∈ sel.selected, 0 ≤ (s : Int) + (t - f) ∧ (s : Int) + (t - f) < 256) →
      (∀ s ∈ sel.selected, (∀ s2 ∈ sel.selected, (s : Int) ≠ (s2 : Int) + (t - f)) →
        jsGet (handleReorder f t font sel).1.characters s = none) ∧
      (∀ s ∈ sel.selected,
        jsGet (handleReorder f t font sel).1.characters ((s : Int) + (t - f)).toNat =
          jsGet font.characters s) ∧
      (∀ i : Nat, i ∉ sel.selected →
        (∀ s2 ∈ sel.selected, (i : Int) ≠ (s2 : Int) + (t - f)) →
        jsGet (handleReorder f t font sel).1.characters i = jsGet font.characters i) := by
  intro font sel f t hne ht0 ht1 h256 hnd hsel hin
  refine ⟨?_, ?_, ?_⟩
  · intro s hs hnot
    exact reorder_clears font sel f t hne ht0 ht1 h256 hin s hs (hsel s hs) hnot
  · intro s hs
    exact reorder_writes font sel f t hne ht0 ht1 h256 hnd hin s hs
  · intro i hi hnot
    exact reorder_untouched font sel f t hne ht0 ht1 hin i hi hnot

/-- Witness for C2: selection 0, 1, 2 moved by offset 10 — slot 0 is cleared
and slot 10 receives the character previously at slot 0. -/
theorem C2_move_spec_witness :
    jsGet (handleReorder 0 10 fontABC ⟨0, [0, 1, 2]⟩).1.characters 0 = none ∧
    jsGet (handleReorder 0 10 fontABC ⟨0, [0, 1, 2]⟩).1.characters 10 =
      jsGet fontABC.characters 0 := by
  have h := C2_move_spec fontABC ⟨0, [0, 1, 2]⟩ 0 10 (by decide) (by decide) (by decide)
    (by decide) (by decide) (by decide) (by decide)
  refine ⟨h.1 0 (by decide) (by decide), ?_⟩
  have h2 := h.2.1 0 (by decide)
  have hidx : ((((0 : Nat) : Int)) + (10 - 0)).toNat = 10 := by decide
  rw [hidx] at h2
  exact h2

/-- Claim C7 (confirmed): move(from,to) followed by move(to,from), the second
applied to the updated selection, restores the original table content at every
originally selected index; the proviso of the claim (no destination coinciding
with an untouched slot) is not even needed. -/
theorem C7_move_roundtrip :
    ∀ (font : Font) (sel : Selection) (f t : Int),
      f ≠ t → 0 ≤ f → f < 256 → 0 ≤ t → t < 256 →
      font.characters.length = 256 → sel.selected ≠ [] → sel.selected.Nodup →
      (∀ s ∈ sel.selected, s < 256) →
      (∀ s ∈ sel.selected, 0 ≤ (s : Int) + (t - f) ∧ (s : Int) + (t - f) < 256) →
      ∀ s ∈ sel.selected,
        jsGet (handleReorder t f (handleReorder f t font sel).1
          (handleReorder f t font sel).2).1.characters s = jsGet font.characters s := by
  intro font sel f t hne hf0 hf1 ht0 ht1 h256 hnonempty hnd hsel hin s hs
  have hsel1 := reorder_selection font sel f t hne ht0 ht1 hin
  have hmemiff : ∀ i : Nat, i ∈ (handleReorder f t font sel).2.selected ↔
      ∃ s2 ∈ sel.selected, i = ((s2 : Int) + (t - f)).toNat := by
    intro i
    rw [hsel1]
    exact mem_reorder_selected
  have hnd2 : (handleReorder f t font sel).2.selected.Nodup := by
    rw [hsel1]
    exact setOfList_nodup _
  have h256b : (handleReorder f t font sel).1.characters.length = 256 :=
    (length_handleReorder f t font sel).trans h256
  have hin2 : ∀ i ∈ (handleReorder f t font sel).2.selected,
      0 ≤ (i : Int) + (f - t) ∧ (i : Int) + (f - t) < 256 := by
    intro i hi
    rcases (hmemiff i).mp hi with ⟨s2, hs2, rfl⟩
    have hr := hin s2 hs2
    have hlt := hsel s2 hs2
    omega
  have hmem2 : ((s : Int) + (t - f)).toNat ∈ (handleReorder f t font sel).2.selected :=
    (hmemiff _).mpr ⟨s, hs, rfl⟩
  have hw2 := reorder_writes (handleReorder f t font sel).1 (handleReorder f t font sel).2
    t f (Ne.symm hne) hf0 hf1 h256b hnd2 hin2 (((s : Int) + (t - f)).toNat) hmem2
  have hidx : (((((s : Int) + (t - f)).toNat : Nat) : Int) + (f - t)).toNat = s := by
    have := hin s hs
    omega
  rw [hidx] at hw2
  have hw1 := reorder_writes font sel f t hne ht0 ht1 h256 hnd hin s hs
  exact hw2.trans hw1

/-- Witness for C7: the overlapping-range scenario — selection 0, 1, 2 moved by
offset 1 and then back by offset minus 1 restores slot 2. -/
theorem C7_move_roundtrip_witness :
    jsGet (handleReorder 1 0 (handleReorder 0 1 fontABC ⟨0, [0, 1, 2]⟩).1
      (handleReorder 0 1 fontABC ⟨0, [0, 1, 2]⟩).2).1.characters 2 =
      jsGet fontABC.characters 2 :=
  C7_move_roundtrip fontABC ⟨0, [0, 1, 2]⟩ 0 1 (by decide) (by decide) (by decide)
    (by decide) (by decide) (by decide) (by decide) (by decide) (by decide) (by decide)
    2 (by decide)

/-- Claim C8 counterexample: paste does not write the stored character itself
when it has a name — the clipboard stores segments 7 with name A, while paste
writes segments 7 with name A_copy into the destination slot. -/
theorem C8_counterexample :
    handleCopySelection fontClip ⟨4, [4]⟩ none = some ⟨[⟨0, ⟨7, some "A"⟩⟩]⟩ ∧
    jsGet (handlePaste fontClip ⟨20, [20]⟩
      (some ⟨[⟨0, ⟨7, some "A"⟩⟩]⟩)).1.characters 20 = some ⟨7, some "A_copy"⟩ ∧
    (⟨7, some "A_copy"⟩ : Character) ≠ ⟨7, some "A"⟩ := by
  decide

/-- Claim C8 (corrected, amended form): copySelectionToClipboard stores, for
every selected index holding a defined character, the pair (index - anchor,
character), dropping absent slots and leaving the clipboard unchanged when the
snapshot is empty; a subsequent pasteFromClipboard with in-range destinations
writes at anchor + offset a copy of each stored character (segments verbatim,
name suffixed with _copy when present, null name kept null), sets the selected
set to exactly the destination set, and leaves the anchor unchanged. -/
theorem C8_clipboard_spec :
    (∀ (font : Font) (sel : Selection) (off : Int) (c : Character),
      (⟨off, c⟩ : ClipEntry) ∈ clipSnapshot font sel ↔
        ∃ idx ∈ sel.selected, jsGet font.characters idx = some c ∧
          off = (idx : Int) - (sel.anchor : Int)) ∧
    (∀ (font : Font) (sel : Selection) (clip : Option Clipboard),
      clipSnapshot font sel = [] → handleCopySelection font sel clip = clip) ∧
    (∀ (font : Font) (sel : Selection) (clip : Option Clipboard),
      clipSnapshot font sel ≠ [] →
      handleCopySelection font sel clip = some ⟨clipSnapshot font sel⟩) ∧
    (∀ (font : Font) (sel : Selection) (cb : Clipboard),
      cb.characters ≠ [] → font.characters.length = 256 →
      (cb.characters.map ClipEntry.offset).Nodup →
      (∀ e ∈ cb.characters,
        0 ≤ (sel.anchor : Int) + e.offset ∧ (sel.anchor : Int) + e.offset < 256) →
      (∀ e ∈ cb.characters,
        jsGet (handlePaste font sel (some cb)).1.characters
          ((sel.anchor : Int) + e.offset).toNat = some (copyOf e.char)) ∧
      (handlePaste font sel (some cb)).2.anchor = sel.anchor ∧
      (∀ i : Nat, i ∈ (handlePaste font sel (some cb)).2.selected ↔
        ∃ e ∈ cb.characters, i = ((sel.anchor : Int) + e.offset).toNat)) := by
  refine ⟨@mem_clipSnapshot, handleCopySelection_empty, handleCopySelection_nonempty, ?_⟩
  intro font sel cb hne h256 hoff hin
  have hnodup : ((cb.characters.map
      (fun item => ((sel.anchor : Int) + item.offset, item.char))).map
      (fun p => p.1.toNat)).Nodup := by
    rw [List.map_map]
    have heq : ((fun p : Int × Character => p.1.toNat) ∘
        (fun item : ClipEntry => ((sel.anchor : Int) + item.offset, item.char))) =
        ((fun o : Int => ((sel.anchor : Int) + o).toNat) ∘ ClipEntry.offset) := rfl
    rw [heq, ← List.map_map]
    refine List.Nodup.map_on ?_ hoff
    intro x hx y hy hxy
    rw [List.mem_map] at hx hy
    rcases hx with ⟨e1, he1, rfl⟩
    rcases hy with ⟨e2, he2, rfl⟩
    have r1 := hin e1 he1
    have r2 := hin e2 he2
    omega
  refine ⟨?_, ?_, ?_⟩
  · intro e he
    rw [handlePaste_chars_eq font sel cb hne hin]
    apply jsGet_placePastes_write _ _ _ _ hnodup
    · exact ⟨(sel.anchor : Int) + e.offset, List.mem_map_of_mem _ he, rfl⟩
    · rw [h256]
      have := hin e he
      omega
  · rw [handlePaste_sel_eq font sel cb hne hin]
  · intro i
    rw [handlePaste_sel_eq font sel cb hne hin]
    dsimp only
    rw [mem_setOfList, List.map_map, List.mem_map]
    constructor
    · rintro ⟨e, he, rfl⟩
      exact ⟨e, he, rfl⟩
    · rintro ⟨e, he, rfl⟩
      exact ⟨e, he, rfl⟩

/-- Witness for C8: the scenario of the claim — selection 4, 6 with anchor 4
stores offsets 0 and 2; pasting with anchor 20 writes the copies to 20 and 22
and keeps the anchor at 20. -/
theorem C8_clipboard_spec_witness :
    (⟨2, ⟨9, none⟩⟩ : ClipEntry) ∈ clipSnapshot fontClip ⟨4, [4, 6]⟩ ∧
    handleCopySelection fontClip ⟨4, [4, 6]⟩ none =
      some ⟨clipSnapshot fontClip ⟨4, [4, 6]⟩⟩ ∧
    jsGet (handlePaste fontClip ⟨20, [20]⟩ (some cbW)).1.characters 22 =
      some (copyOf ⟨9, none⟩) ∧
    (handlePaste fontClip ⟨20, [20]⟩ (some cbW)).2.anchor = 20 := by
  have h4 := C8_clipboard_spec.2.2.2 fontClip ⟨20, [20]⟩ cbW (by decide) (by decide)
    (by decide) (by decide)
  refine ⟨(C8_clipboard_spec.1 fontClip ⟨4, [4, 6]⟩ 2 ⟨9, none⟩).mpr
      ⟨6, by decide, by decide, by decide⟩,
    C8_clipboard_spec.2.2.1 fontClip ⟨4, [4, 6]⟩ none (by decide), ?_, h4.2.1⟩
  exact h4.1 ⟨2, ⟨9, none⟩⟩ (by decide)

/-- Every kept slot of the fill loop over a raw entry list is the
normalisation of the raw entry at the same position. -/
theorem loadChars_fill_analysis (entries : List (Option RawChar)) (i : Nat) (c : LChar)
    (h : jsGetL (fillChars 0 entries (List.replicate 256 none)) i = some c) :
    ∃ e, entries[i]? = some (some e) ∧ c = normalizeChar e := by
  have hfill := jsGetL_fillChars_eq entries 0 (List.replicate 256 none) i (Nat.zero_le i)
    (by rw [List.length_replicate])
  rw [Nat.sub_zero] at hfill
  rw [hfill] at h
  rcases hq : entries[i]? with _ | oe
  · rw [hq] at h
    rw [jsGetL_replicate_none] at h
    exact absurd h (by simp)
  · rcases oe with _ | e
    · rw [hq] at h
      dsimp only at h
      rw [jsGetL_replicate_none] at h
      exact absurd h (by simp)
    · rw [hq] at h
      dsimp only at h
      split at h
      · exact ⟨e, rfl, (Option.some_inj.mp h).symm⟩
      · rw [jsGetL_replicate_none] at h
        exact absurd h (by simp)

/-- Claim C5 (corrected, amended form): every kept entry of a loaded document
is exactly the normalisation of the raw entry at its index — the segments
field is kept unchanged when truthy and becomes the number 0 when falsy
(missing, null, 0, false, empty string), and the name field is kept unchanged
when truthy and becomes null when falsy — except for the forced blank at slot
0, which appears only when the raw data holds no non-null entry at index 0.
A loaded segments value is therefore a number whenever the raw value was
numeric or falsy, but a truthy non-numeric raw segments value survives
as-is. -/
theorem C5_load_normalization :
    ∀ (data : RawData) (i : Nat) (c : LChar),
      jsGetL (handleLoadFont data).characters i = some c →
      (∃ entries e, data.characters = some entries ∧ entries[i]? = some (some e) ∧
        c.segments = (if e.segments.truthy = true then e.segments else .num 0) ∧
        c.name = (if e.name.truthy = true then e.name else .jsNull)) ∨
      (i = 0 ∧ c = ⟨.num 0, .jsNull⟩ ∧
        ∀ entries e, data.characters = some entries → entries[0]? = some (some e) → False) := by
  intro data i c h
  have hchar : jsGetL (loadChars data.characters) i = some c := h
  rcases hdata : data.characters with _ | entries
  · rw [hdata] at hchar
    simp only [loadChars, jsGetL_replicate_none, Option.isNone_none, if_true] at hchar
    by_cases hi : i = 0
    · subst hi
      rw [jsGetL_set_self _ _ _ (by rw [List.length_replicate]; omega)] at hchar
      have hc := Option.some_inj.mp hchar
      refine Or.inr ⟨rfl, hc.symm, ?_⟩
      intro es e hes
      exact absurd hes (by simp)
    · rw [jsGetL_set_ne _ _ _ _ (fun h2 => hi h2.symm), jsGetL_replicate_none] at hchar
      exact absurd hchar (by simp)
  · rw [hdata] at hchar
    simp only [loadChars] at hchar
    split at hchar
    · next hforce =>
      by_cases hi : i = 0
      · subst hi
        rw [jsGetL_set_self _ _ _
          (by rw [length_fillChars, List.length_replicate]; omega)] at hchar
        have hc := Option.some_inj.mp hchar
        refine Or.inr ⟨rfl, hc.symm, ?_⟩
        intro es e hes hq
        injection hes with hes2
        subst hes2
        have hfill := jsGetL_fillChars_eq entries 0 (List.replicate 256 none) 0 (Nat.zero_le 0)
          (by rw [List.length_replicate])
        rw [Nat.sub_zero, hq] at hfill
        dsimp only at hfill
        rw [if_pos (by omega)] at hfill
        rw [hfill] at hforce
        simp at hforce
      · rw [jsGetL_set_ne _ _ _ _ (fun h2 => hi h2.symm)] at hchar
        rcases loadChars_fill_analysis entries i c hchar with ⟨e, hq, rfl⟩
        exact Or.inl ⟨entries, e, rfl, hq,
          by simp only [normalizeChar, jsOr], by simp only [normalizeChar, jsOr]⟩
    · rcases loadChars_fill_analysis entries i c hchar with ⟨e, hq, rfl⟩
      exact Or.inl ⟨entries, e, rfl, hq,
        by simp only [normalizeChar, jsOr], by simp only [normalizeChar, jsOr]⟩

/-- Claim C5 counterexample: loading an entry whose segments field is the
truthy non-numeric string x keeps that string — the loaded slot 0 holds
segments str x, which is not a number, because the OR-with-0 normalisation
only replaces falsy values, not all non-numeric ones. -/
theorem C5_counterexample :
    jsGetL (handleLoadFont ⟨.str "F", some [some ⟨.str "x", .undef⟩]⟩).characters 0 =
      some ⟨.str "x", .jsNull⟩ ∧
    JSVal.isNum (.str "x") = false := by
  decide

/-- Witness for C5 at a loaded entry with falsy segments and truthy name. -/
theorem C5_load_normalization_witness :
    (∃ entries e, rawW.characters = some entries ∧ entries[0]? = some (some e) ∧
      (⟨.num 0, .str "A"⟩ : LChar).segments =
        (if e.segments.truthy = true then e.segments else .num 0) ∧
      (⟨.num 0, .str "A"⟩ : LChar).name =
        (if e.name.truthy = true then e.name else .jsNull)) ∨
    ((0 : Nat) = 0 ∧ (⟨.num 0, .str "A"⟩ : LChar) = ⟨.num 0, .jsNull⟩ ∧
      ∀ entries e, rawW.characters = some entries → entries[0]? = some (some e) → False) :=
  C5_load_normalization rawW 0 ⟨.num 0, .str "A"⟩ (by decide)

end FontEditor
